import Mathlib

/-!
Verification of the word-list generator `utils/wordle_face/wordle_list.py`.

Words and letter sets are modelled as lists of characters (`List Char`);
Python's module-level `words` dictionary is passed explicitly as the first
argument of the functions that read it.  Python `str.upper()` on the
single characters involved coincides with `Char.toUpper`.
-/

/-- A word of the dictionary: a Python string, modelled as its characters. -/
abbrev Word := List Char

/-- The first two statements of `list_of_valid_words`:
`letters = sorted(letters)` followed by uppercasing every entry in place. -/
def normalize_letters (letters : List Char) : List Char :=
  (List.insertionSort (fun a b => a ≤ b) letters).map Char.toUpper

/-- The inner `for letter in word` loop of `list_of_valid_words`: the word is
valid iff no character fails the membership test `letter.upper() not in letters`. -/
def valid_word (letters : List Char) (word : Word) : Bool :=
  word.all fun letter => letters.contains letter.toUpper

/-- The main `for word in words` loop of `list_of_valid_words`, carrying the
`legal_words` accumulator: a valid word not already collected is appended. -/
def legal_loop (letters : List Char) : List Word → List Word → List Word
  | acc, [] => acc
  | acc, w :: ws =>
      if valid_word letters w && !(acc.contains w) then
        legal_loop letters (acc ++ [w]) ws
      else
        legal_loop letters acc ws

/-- Function `list_of_valid_words(letters)` from the source, with the module-level
`words` list made an explicit argument `ws`. -/
def list_of_valid_words (ws : List Word) (letters : List Char) : List Word :=
  legal_loop (normalize_letters letters) [] ws

/-- Emission-order form of `legal_loop`: produces only the words appended
after the point where the accumulator held exactly `seen`. -/
def filter_dedup (letters : List Char) : List Word → List Word → List Word
  | _, [] => []
  | seen, w :: ws =>
      if valid_word letters w && !(seen.contains w) then
        w :: filter_dedup letters (seen ++ [w]) ws
      else
        filter_dedup letters seen ws

/-- Keep the first occurrence of every element, dropping later duplicates. -/
def dedup_keep_first : List Word → List Word
  | [] => []
  | x :: xs => x :: dedup_keep_first (xs.filter fun y => y ≠ x)
termination_by l => l.length
decreasing_by
  simp only [List.length_cons]
  exact Nat.lt_succ_of_le (List.length_filter_le _ _)

theorem loop_cond_iff (letters : List Char) (seen : List Word) (w : Word) :
    (valid_word letters w && !(seen.contains w)) = true ↔
      valid_word letters w = true ∧ w ∉ seen := by
  simp [List.contains]

theorem legal_loop_eq_append (letters : List Char) :
    ∀ (ws acc : List Word),
      legal_loop letters acc ws = acc ++ filter_dedup letters acc ws
  | [], acc => by simp [legal_loop, filter_dedup]
  | w :: ws, acc => by
    by_cases h : (valid_word letters w && !(acc.contains w)) = true
    · rw [legal_loop, filter_dedup, if_pos h, if_pos h,
        legal_loop_eq_append letters ws (acc ++ [w])]
      simp
    · rw [legal_loop, filter_dedup, if_neg h, if_neg h,
        legal_loop_eq_append letters ws acc]

theorem mem_filter_dedup {letters : List Char} {w : Word} :
    ∀ {ws seen : List Word},
      w ∈ filter_dedup letters seen ws ↔
        w ∈ ws ∧ valid_word letters w = true ∧ w ∉ seen
  | [], seen => by simp [filter_dedup]
  | v :: ws, seen => by
    rw [filter_dedup]
    by_cases h : (valid_word letters v && !(seen.contains v)) = true
    · rw [if_pos h]
      rw [loop_cond_iff] at h
      constructor
      · intro hw
        rcases List.mem_cons.1 hw with rfl | hw
        · exact ⟨List.mem_cons_self _ _, h.1, h.2⟩
        · have := (@mem_filter_dedup letters w ws (seen ++ [v])).1 hw
          refine ⟨List.mem_cons_of_mem _ this.1, this.2.1, fun hs => this.2.2 ?_⟩
          simp [hs]
      · rintro ⟨hmem, hvalid, hseen⟩
        rcases List.mem_cons.1 hmem with rfl | hmem
        · exact List.mem_cons_self _ _
        · by_cases hwv : w = v
          · exact hwv ▸ List.mem_cons_self _ _
          · refine List.mem_cons_of_mem _
              ((@mem_filter_dedup letters w ws (seen ++ [v])).2
                ⟨hmem, hvalid, ?_⟩)
            simp [hseen, hwv]
    · rw [if_neg h]
      rw [loop_cond_iff, not_and, not_not] at h
      rw [@mem_filter_dedup letters w ws seen]
      constructor
      · rintro ⟨hmem, hvalid, hseen⟩
        exact ⟨List.mem_cons_of_mem _ hmem, hvalid, hseen⟩
      · rintro ⟨hmem, hvalid, hseen⟩
        rcases List.mem_cons.1 hmem with rfl | hmem
        · exact absurd (h hvalid) hseen
        · exact ⟨hmem, hvalid, hseen⟩

theorem filter_dedup_sublist (letters : List Char) :
    ∀ (ws seen : List Word), List.Sublist (filter_dedup letters seen ws) ws
  | [], _ => by simp [filter_dedup]
  | w :: ws, seen => by
    rw [filter_dedup]
    by_cases h : (valid_word letters w && !(seen.contains w)) = true
    · rw [if_pos h]
      exact (filter_dedup_sublist letters ws (seen ++ [w])).cons₂ w
    · rw [if_neg h]
      exact (filter_dedup_sublist letters ws seen).cons w

theorem filter_dedup_nodup (letters : List Char) :
    ∀ (ws seen : List Word), seen.Nodup →
      (seen ++ filter_dedup letters seen ws).Nodup
  | [], seen, hseen => by simpa [filter_dedup] using hseen
  | w :: ws, seen, hseen => by
    rw [filter_dedup]
    by_cases h : (valid_word letters w && !(seen.contains w)) = true
    · rw [if_pos h]
      rw [loop_cond_iff] at h
      have hrw : seen ++ w :: filter_dedup letters (seen ++ [w]) ws =
          (seen ++ [w]) ++ filter_dedup letters (seen ++ [w]) ws := by simp
      rw [hrw]
      refine filter_dedup_nodup letters ws (seen ++ [w]) ?_
      simp [List.nodup_append, hseen, h.2]
    · rw [if_neg h]
      exact filter_dedup_nodup letters ws seen hseen

theorem filter_shrink_seen (seen : List Word) (v : Word) (l : List Word) :
    (l.filter fun w => !seen.contains w).filter (fun y => y ≠ v) =
      l.filter fun w => !(seen ++ [v]).contains w := by
  rw [List.filter_filter]
  apply List.filter_congr
  intro a _
  by_cases h1 : a ∈ seen <;> by_cases h2 : a = v <;>
    simp [List.contains, h1, h2]

theorem filter_dedup_eq_dedup_keep_first (letters : List Char) :
    ∀ (ws seen : List Word),
      filter_dedup letters seen ws =
        dedup_keep_first
          ((ws.filter (valid_word letters)).filter fun w => !seen.contains w)
  | [], seen => by simp [filter_dedup, dedup_keep_first]
  | v :: ws, seen => by
    rw [filter_dedup]
    by_cases hv : valid_word letters v = true
    · by_cases hs : v ∈ seen
      · rw [if_neg, List.filter_cons_of_pos hv, List.filter_cons_of_neg (by simp [List.contains, hs]),
          filter_dedup_eq_dedup_keep_first letters ws seen]
        rw [loop_cond_iff]
        rintro ⟨-, hns⟩
        exact hns hs
      · rw [if_pos ((loop_cond_iff letters seen v).2 ⟨hv, hs⟩),
          List.filter_cons_of_pos hv, List.filter_cons_of_pos (by simp [List.contains, hs]),
          dedup_keep_first, filter_dedup_eq_dedup_keep_first letters ws (seen ++ [v]),
          filter_shrink_seen seen v]
    · rw [if_neg, List.filter_cons_of_neg hv, filter_dedup_eq_dedup_keep_first letters ws seen]
      rw [loop_cond_iff]
      rintro ⟨hvv, -⟩
      exact hv hvv

theorem list_of_valid_words_eq (ws : List Word) (L : List Char) :
    list_of_valid_words ws L =
      dedup_keep_first (ws.filter (valid_word (normalize_letters L))) := by
  rw [list_of_valid_words, legal_loop_eq_append, List.nil_append,
    filter_dedup_eq_dedup_keep_first]
  congr 1
  apply List.filter_eq_self.2
  intro a _
  rfl

theorem mem_normalize_letters {c : Char} {L : List Char} :
    c ∈ normalize_letters L ↔ c ∈ L.map Char.toUpper :=
  ((List.perm_insertionSort (fun a b => a ≤ b) L).map Char.toUpper).mem_iff

theorem valid_word_normalize_iff {L : List Char} {w : Word} :
    valid_word (normalize_letters L) w = true ↔
      ∀ c ∈ w, c.toUpper ∈ L.map Char.toUpper := by
  rw [valid_word, List.all_eq_true]
  constructor
  · intro h c hc
    exact mem_normalize_letters.1 (by simpa [List.contains] using h c hc)
  · intro h c hc
    simpa [List.contains] using mem_normalize_letters.2 (h c hc)

theorem mem_list_of_valid_words {ws : List Word} {L : List Char} {w : Word} :
    w ∈ list_of_valid_words ws L ↔
      w ∈ ws ∧ valid_word (normalize_letters L) w = true := by
  rw [list_of_valid_words, legal_loop_eq_append, List.nil_append, mem_filter_dedup]
  simp

theorem filter_dedup_id (letters : List Char) :
    ∀ (l seen : List Word), (∀ w ∈ l, valid_word letters w = true) →
      l.Nodup → (∀ w ∈ l, w ∉ seen) → filter_dedup letters seen l = l
  | [], _, _, _, _ => by simp [filter_dedup]
  | v :: l, seen, hvalid, hnd, hdisj => by
    rw [filter_dedup, if_pos ((loop_cond_iff letters seen v).2
      ⟨hvalid v (List.mem_cons_self _ _), hdisj v (List.mem_cons_self _ _)⟩)]
    congr 1
    refine filter_dedup_id letters l (seen ++ [v])
      (fun w hw => hvalid w (List.mem_cons_of_mem _ hw))
      (List.Nodup.of_cons hnd) ?_
    intro w hw hmem
    rcases List.mem_append.1 hmem with hmem | hmem
    · exact hdisj w (List.mem_cons_of_mem _ hw) hmem
    · rw [List.mem_singleton] at hmem
      exact (List.nodup_cons.1 hnd).1 (hmem ▸ hw)

/-- C1: for every letter set `L`, a dictionary word `w` appears in
`list_of_valid_words ws L` iff every character of `w`, uppercased, is a
member of the uppercased `L`; no minimum number of distinct letters of `L`
need be used. -/
theorem filter_mem_iff_chars_subset (ws : List Word) (L : List Char) (w : Word)
    (hw : w ∈ ws) :
    w ∈ list_of_valid_words ws L ↔ ∀ c ∈ w, c.toUpper ∈ L.map Char.toUpper := by
  rw [mem_list_of_valid_words, valid_word_normalize_iff]
  exact and_iff_right hw

theorem filter_mem_iff_chars_subset_witness :
    (['C', 'A', 'T'] : Word) ∈ [['C', 'A', 'T'], ['C', 'A', 'T', 'S'], ['D', 'O', 'G'], ['A', 'C', 'T']] ∧
      (['C', 'A', 'T'] : Word) ∈
        list_of_valid_words
          [['C', 'A', 'T'], ['C', 'A', 'T', 'S'], ['D', 'O', 'G'], ['A', 'C', 'T']]
          ['A', 'C', 'T'] :=
  ⟨by decide,
    (filter_mem_iff_chars_subset
      [['C', 'A', 'T'], ['C', 'A', 'T', 'S'], ['D', 'O', 'G'], ['A', 'C', 'T']]
      ['A', 'C', 'T'] ['C', 'A', 'T'] (by decide)).2 (by decide)⟩

/-- C5: the filter result has no repeated word, is an order-preserving
subsequence of the dictionary, and keeps each word at its first occurrence:
it equals the first-occurrence deduplication of the matching subsequence. -/
theorem filter_nodup_sublist_first (ws : List Word) (L : List Char) :
    (list_of_valid_words ws L).Nodup ∧
      List.Sublist (list_of_valid_words ws L) ws ∧
      list_of_valid_words ws L =
        dedup_keep_first (ws.filter (valid_word (normalize_letters L))) := by
  refine ⟨?_, ?_, list_of_valid_words_eq ws L⟩
  · have := filter_dedup_nodup (normalize_letters L) ws [] (List.nodup_nil)
    rw [list_of_valid_words, legal_loop_eq_append]
    simpa using this
  · rw [list_of_valid_words, legal_loop_eq_append, List.nil_append]
    exact filter_dedup_sublist _ ws []

/-- C9: the filter is idempotent: running the same membership-and-deduplication
pass over the filter's own output, with the same letter set, returns the
output unchanged. -/
theorem filter_idempotent (ws : List Word) (L : List Char) :
    list_of_valid_words (list_of_valid_words ws L) L = list_of_valid_words ws L := by
  set R := list_of_valid_words ws L with hR
  have hvalid : ∀ w ∈ R, valid_word (normalize_letters L) w = true := by
    intro w hw
    exact (mem_list_of_valid_words.1 (hR ▸ hw)).2
  have hnd : R.Nodup := by
    have := filter_dedup_nodup (normalize_letters L) ws [] (List.nodup_nil)
    rw [hR, list_of_valid_words, legal_loop_eq_append]
    simpa using this
  conv_lhs => rw [list_of_valid_words, legal_loop_eq_append, List.nil_append]
  exact filter_dedup_id (normalize_letters L) R [] hvalid hnd (by simp)

/-- The test `len(word) == len(set(word))` from `rearrange_words_by_uniqueness`:
the number of distinct characters equals the length. -/
def has_unique_chars (w : Word) : Bool :=
  w.length == w.dedup.length

/-- Function `rearrange_words_by_uniqueness(words)` from the source: the two list
comprehensions and the returned pair `(unique + duplicates, len(unique))`. -/
def rearrange_words_by_uniqueness (ws : List Word) : List Word × Nat :=
  let unique := ws.filter fun word => has_unique_chars word
  let duplicates := ws.filter fun word => !(has_unique_chars word)
  (unique ++ duplicates, unique.length)

theorem has_unique_chars_iff_nodup {w : Word} :
    has_unique_chars w = true ↔ w.Nodup := by
  rw [has_unique_chars, beq_iff_eq]
  constructor
  · intro h
    exact List.dedup_eq_self.1 ((List.dedup_sublist w).eq_of_length h.symm)
  · intro h
    rw [List.dedup_eq_self.2 h]

/-- C2: the partitioner puts the all-distinct-character words first and the
words with a repeated character after them, each group an order-preserving
subsequence of the input, the concatenation a permutation of the input, and
the returned count is the number of all-distinct-character words. -/
theorem rearrange_partition (ws : List Word) :
    (rearrange_words_by_uniqueness ws).1 =
        (ws.filter fun w => has_unique_chars w) ++
          (ws.filter fun w => !(has_unique_chars w)) ∧
      List.Sublist (ws.filter fun w => has_unique_chars w) ws ∧
      List.Sublist (ws.filter fun w => !(has_unique_chars w)) ws ∧
      (∀ w ∈ ws.filter fun w => has_unique_chars w, w.Nodup) ∧
      (∀ w ∈ ws.filter fun w => !(has_unique_chars w), ¬ w.Nodup) ∧
      (rearrange_words_by_uniqueness ws).1.Perm ws ∧
      (rearrange_words_by_uniqueness ws).2 =
        (ws.filter fun w => has_unique_chars w).length := by
  refine ⟨rfl, List.filter_sublist _, List.filter_sublist _, ?_, ?_, ?_, rfl⟩
  · intro w hw
    exact has_unique_chars_iff_nodup.1 (List.of_mem_filter hw)
  · intro w hw
    have := List.of_mem_filter hw
    rw [Bool.not_eq_true'] at this
    intro hnd
    rw [has_unique_chars_iff_nodup.2 hnd] at this
    cases this
  · exact List.filter_append_perm _ ws

/-- Python `itertools.combinations(pool, k)` as used on line 425 of the source:
all length-`k` subsequences of `pool`, emitted in lexicographic order of
their positions in `pool`. -/
def combinations {α : Type} : Nat → List α → List (List α)
  | 0, _ => [[]]
  | _ + 1, [] => []
  | k + 1, x :: xs =>
      ((combinations k xs).map fun c => x :: c) ++ combinations (k + 1) xs

theorem combinations_length {α : Type} :
    ∀ (l : List α) (k : Nat), (combinations k l).length = l.length.choose k
  | [], 0 => rfl
  | [], _ + 1 => rfl
  | _ :: _, 0 => rfl
  | x :: xs, k + 1 => by
    rw [combinations]
    simp only [List.length_append, List.length_map, combinations_length xs k,
      combinations_length xs (k + 1), List.length_cons]
    rw [Nat.choose_succ_succ]

theorem mem_combinations {α : Type} :
    ∀ {l : List α} {k : Nat} {c : List α},
      c ∈ combinations k l → c.length = k ∧ List.Sublist c l
  | [], 0, c => by
    intro hc
    simp only [combinations, List.mem_singleton] at hc
    subst hc
    exact ⟨rfl, List.nil_sublist _⟩
  | [], _ + 1, c => by
    intro hc
    simp [combinations] at hc
  | _ :: _, 0, c => by
    intro hc
    simp only [combinations, List.mem_singleton] at hc
    subst hc
    exact ⟨rfl, List.nil_sublist _⟩
  | x :: xs, k + 1, c => by
    intro hc
    rw [combinations] at hc
    rcases List.mem_append.1 hc with hc | hc
    · rcases List.mem_map.1 hc with ⟨c', hc', rfl⟩
      have := mem_combinations hc'
      exact ⟨by simp [this.1], this.2.cons₂ x⟩
    · have := mem_combinations hc
      exact ⟨this.1, this.2.cons x⟩

theorem combinations_eq_nil {α : Type} :
    ∀ {l : List α} {k : Nat}, l.length < k → combinations k l = []
  | [], 0, h => absurd h (lt_irrefl 0)
  | [], _ + 1, _ => rfl
  | _ :: _, 0, h => absurd h (Nat.not_lt_zero _)
  | x :: xs, k + 1, h => by
    have h' : xs.length < k := by simpa using h
    rw [combinations, combinations_eq_nil h',
      combinations_eq_nil (Nat.lt_succ_of_lt h')]
    simp

theorem combinations_nodup {α : Type} :
    ∀ {l : List α} {k : Nat}, l.Nodup → (combinations k l).Nodup
  | [], 0, _ => by simp [combinations]
  | [], _ + 1, _ => by simp [combinations]
  | _ :: _, 0, _ => by simp [combinations]
  | x :: xs, k + 1, h => by
    have hx : x ∉ xs := (List.nodup_cons.1 h).1
    have hxs : xs.Nodup := (List.nodup_cons.1 h).2
    rw [combinations]
    refine List.Nodup.append ?_ (combinations_nodup hxs) ?_
    · exact (combinations_nodup hxs).map fun a b hab => by simpa using hab
    · intro c hc1 hc2
      rcases List.mem_map.1 hc1 with ⟨c', _, rfl⟩
      exact hx ((mem_combinations hc2).2.subset (List.mem_cons_self x c'))

theorem combinations_pairwise_lex {α : Type} {r : α → α → Prop} :
    ∀ {l : List α} {k : Nat}, l.Pairwise r →
      (combinations k l).Pairwise (List.Lex r)
  | [], 0, _ => by simp [combinations]
  | [], _ + 1, _ => by simp [combinations]
  | _ :: _, 0, _ => by simp [combinations]
  | x :: xs, k + 1, h => by
    have hx : ∀ y ∈ xs, r x y := (List.pairwise_cons.1 h).1
    have hxs : xs.Pairwise r := (List.pairwise_cons.1 h).2
    rw [combinations, List.pairwise_append]
    refine ⟨?_, combinations_pairwise_lex hxs, ?_⟩
    · exact List.pairwise_map.2
        ((combinations_pairwise_lex hxs).imp fun hab => List.Lex.cons hab)
    · intro a ha b hb
      rcases List.mem_map.1 ha with ⟨c', _, rfl⟩
      rcases b with _ | ⟨y, bs⟩
      · exact absurd (mem_combinations hb).1 (by simp)
      · exact List.Lex.rel
          (hx y ((mem_combinations hb).2.subset (List.mem_cons_self y bs)))

/-- C3: for every duplicate-free alphabet, the combination enumeration yields
exactly `C(n, k)` combinations, each of size `k`, each a subsequence of the
alphabet (hence sorted consistently with the alphabet's order), pairwise
distinct, the whole stream in lexicographic order for any order the alphabet
is sorted by; a size above the alphabet length yields the empty list. -/
theorem combinations_spec (l : List Char) (k : Nat) (hnd : l.Nodup) :
    (combinations k l).length = l.length.choose k ∧
      (∀ c ∈ combinations k l, c.length = k ∧ List.Sublist c l) ∧
      (combinations k l).Nodup ∧
      (∀ r : Char → Char → Prop, l.Pairwise r →
        (combinations k l).Pairwise (List.Lex r)) ∧
      (l.length < k → combinations k l = []) :=
  ⟨combinations_length l k, fun _ hc => mem_combinations hc,
    combinations_nodup hnd, fun _ hr => combinations_pairwise_lex hr,
    fun h => combinations_eq_nil h⟩

theorem combinations_spec_witness :
    (['A', 'B', 'C'] : List Char).Nodup ∧
      (combinations 2 ['A', 'B', 'C']).length = Nat.choose 3 2 ∧
      combinations 2 ['A', 'B', 'C'] = [['A', 'B'], ['A', 'C'], ['B', 'C']] :=
  ⟨by decide, (combinations_spec ['A', 'B', 'C'] 2 (by decide)).1, by decide⟩

/-- The comparison realised by line 449 of the source,
`sorted(dict_combos_counts.items(), key=lambda item: item[1], reverse=True)`:
entry `a` precedes entry `b` when `a`'s score is at least `b`'s. -/
def score_ge (a b : String × Nat) : Prop := b.2 ≤ a.2

instance : DecidableRel score_ge := fun a b => Nat.decLe b.2 a.2

/-- The scoreboard after line 449.  Python's `sorted` and insertion sort are
both stable sorts of the same total preorder, so they agree on every input. -/
def sorted_scoreboard (l : List (String × Nat)) : List (String × Nat) :=
  List.insertionSort score_ge l

/-- Selection `most_common_key` from line 451: `next(iter(...))` of the sorted
scoreboard, i.e. its head (paired here with its score). -/
def most_common_entry (l : List (String × Nat)) : Option (String × Nat) :=
  (sorted_scoreboard l).head?

/-- The earliest entry of maximum score, by direct recursion. -/
def first_max : List (String × Nat) → Option (String × Nat)
  | [] => none
  | x :: xs =>
      match first_max xs with
      | none => some x
      | some y => if y.2 ≤ x.2 then some x else some y

theorem first_max_eq_none {l : List (String × Nat)} :
    first_max l = none ↔ l = [] := by
  cases l with
  | nil => simp [first_max]
  | cons x xs =>
    simp only [first_max]
    cases first_max xs with
    | none => simp
    | some y =>
      by_cases h : y.2 ≤ x.2 <;> simp [h]

theorem head_sorted_scoreboard :
    ∀ l : List (String × Nat), (sorted_scoreboard l).head? = first_max l
  | [] => rfl
  | x :: xs => by
    have hperm := List.perm_insertionSort score_ge xs
    rw [sorted_scoreboard, List.insertionSort]
    rcases hs : List.insertionSort score_ge xs with _ | ⟨b, t⟩
    · have hnil : xs = [] := by
        rw [hs] at hperm
        exact hperm.symm.eq_nil
      subst hnil
      simp [List.orderedInsert, first_max]
    · have hb : first_max xs = some b := by
        have hh := head_sorted_scoreboard xs
        rw [sorted_scoreboard, hs] at hh
        exact hh.symm
      rw [List.orderedInsert]
      by_cases h : score_ge x b
      · rw [if_pos h]
        simp only [List.head?_cons, first_max, hb]
        rw [if_pos (show b.2 ≤ x.2 from h)]
      · rw [if_neg h]
        simp only [List.head?_cons, first_max, hb]
        rw [if_neg (show ¬b.2 ≤ x.2 from h)]

theorem first_max_mem_le :
    ∀ {l : List (String × Nat)} {m : String × Nat}, first_max l = some m →
      m ∈ l ∧ ∀ a ∈ l, a.2 ≤ m.2
  | [], m => by simp [first_max]
  | x :: xs, m => by
    intro h
    rw [first_max] at h
    rcases hxs : first_max xs with _ | y <;> rw [hxs] at h
    · have hnil : xs = [] := first_max_eq_none.1 hxs
      subst hnil
      injection h with h
      subst h
      exact ⟨List.mem_cons_self _ _, by simp⟩
    · obtain ⟨hymem, hyle⟩ := first_max_mem_le hxs
      change (if y.2 ≤ x.2 then some x else some y) = some m at h
      by_cases hc : y.2 ≤ x.2
      · rw [if_pos hc] at h
        injection h with h
        subst h
        refine ⟨List.mem_cons_self _ _, ?_⟩
        intro a ha
        rcases List.mem_cons.1 ha with rfl | ha
        · exact le_refl _
        · exact le_trans (hyle a ha) hc
      · rw [if_neg hc] at h
        injection h with h
        subst h
        refine ⟨List.mem_cons_of_mem _ hymem, ?_⟩
        intro a ha
        rcases List.mem_cons.1 ha with rfl | ha
        · exact le_of_lt (lt_of_not_le hc)
        · exact hyle a ha

theorem first_max_first :
    ∀ {l : List (String × Nat)} {m : String × Nat}, first_max l = some m →
      ∃ l1 l2, l = l1 ++ m :: l2 ∧ ∀ a ∈ l1, a.2 < m.2
  | [], m => by simp [first_max]
  | x :: xs, m => by
    intro h
    rw [first_max] at h
    rcases hxs : first_max xs with _ | y <;> rw [hxs] at h
    · injection h with h
      subst h
      exact ⟨[], xs, rfl, by simp⟩
    · change (if y.2 ≤ x.2 then some x else some y) = some m at h
      by_cases hc : y.2 ≤ x.2
      · rw [if_pos hc] at h
        injection h with h
        subst h
        exact ⟨[], xs, rfl, by simp⟩
      · rw [if_neg hc] at h
        injection h with h
        subst h
        obtain ⟨l1, l2, heq, hlt⟩ := first_max_first hxs
        refine ⟨x :: l1, l2, by rw [heq]; rfl, ?_⟩
        intro a ha
        rcases List.mem_cons.1 ha with rfl | ha
        · exact lt_of_not_le hc
        · exact hlt a ha

/-- C4: the entry selected from a nonempty scoreboard (the head after the
stable score-descending sort) scores at least every entry of the scoreboard,
and is the earliest-inserted entry among those attaining the maximum: every
entry before it has a strictly smaller score. -/
theorem best_selection (l : List (String × Nat)) (h : l ≠ []) :
    ∃ m l1 l2, most_common_entry l = some m ∧
      l = l1 ++ m :: l2 ∧
      (∀ a ∈ l, a.2 ≤ m.2) ∧
      (∀ a ∈ l1, a.2 < m.2) := by
  rcases hm : first_max l with _ | m
  · exact absurd (first_max_eq_none.1 hm) h
  · obtain ⟨l1, l2, heq, hlt⟩ := first_max_first hm
    obtain ⟨_, hle⟩ := first_max_mem_le hm
    exact ⟨m, l1, l2, by rw [most_common_entry, head_sorted_scoreboard, hm],
      heq, hle, hlt⟩

theorem best_selection_witness :
    ([("a", 1), ("b", 2), ("c", 2)] : List (String × Nat)) ≠ [] ∧
      (∃ m l1 l2,
        most_common_entry [("a", 1), ("b", 2), ("c", 2)] = some m ∧
        [("a", 1), ("b", 2), ("c", 2)] = l1 ++ m :: l2 ∧
        (∀ a ∈ ([("a", 1), ("b", 2), ("c", 2)] : List (String × Nat)), a.2 ≤ m.2) ∧
        (∀ a ∈ l1, a.2 < m.2)) ∧
      most_common_entry [("a", 1), ("b", 2), ("c", 2)] = some ("b", 2) :=
  ⟨by simp, best_selection [("a", 1), ("b", 2), ("c", 2)] (by simp), by decide⟩

/-- Python `int(x)`: truncation toward zero.  Python floats are modelled as
exact rationals throughout. -/
def pyTrunc (q : ℚ) : ℤ :=
  if q < 0 then -⌊-q⌋ else ⌊q⌋

/-- Python float floor division `a // b`. -/
def pyFloorDiv (a b : ℚ) : ℚ :=
  (⌊a / b⌋ : ℚ)

/-- Python float modulo `a % b`, i.e. `a - b * (a // b)`. -/
def pyMod (a b : ℚ) : ℚ :=
  a - b * (⌊a / b⌋ : ℚ)

/-- Python `round(x)` on a float: round half to even. -/
def pyRound (q : ℚ) : ℤ :=
  if q - ⌊q⌋ < 1 / 2 then ⌊q⌋
  else if 1 / 2 < q - ⌊q⌋ then ⌊q⌋ + 1
  else if ⌊q⌋ % 2 = 0 then ⌊q⌋ else ⌊q⌋ + 1

/-- Function `get_sec_val_and_units(seconds)` from the source. -/
def get_sec_val_and_units (seconds : ℚ) : String :=
  if seconds < 1 then toString (pyRound (seconds * 1000)) ++ " ms"
  else
    let hours := pyTrunc (pyFloorDiv seconds 3600)
    let minutes := pyTrunc (pyFloorDiv (pyMod seconds 3600) 60)
    let secs := pyTrunc (pyMod seconds 60)
    if 0 < hours then
      toString hours ++ " hr " ++ toString minutes ++ " min " ++
        toString secs ++ " sec"
    else if 0 < minutes then
      toString minutes ++ " min " ++ toString secs ++ " sec"
    else
      toString secs ++ " sec"

theorem pyTrunc_intCast (n : ℤ) : pyTrunc (n : ℚ) = n := by
  rw [pyTrunc]
  split_ifs with h
  · rw [← Int.cast_neg, Int.floor_intCast, neg_neg]
  · exact Int.floor_intCast n

theorem pyRound_intCast (n : ℤ) : pyRound (n : ℚ) = n := by
  rw [pyRound, Int.floor_intCast, if_pos (by norm_num)]

theorem floor_div_intCast (a : ℚ) (n : ℤ) (hn : 0 < n) :
    ⌊a / n⌋ = ⌊a⌋ / n := by
  refine eq_of_forall_le_iff fun z => ?_
  rw [Int.le_floor, le_div_iff₀ (by exact_mod_cast hn),
    Int.le_ediv_iff_mul_le hn,
    show ((z : ℚ) * (n : ℚ)) = ((z * n : ℤ) : ℚ) by push_cast; ring,
    ← Int.le_floor]

theorem hours_value (s : ℚ) : pyTrunc (pyFloorDiv s 3600) = ⌊s / 3600⌋ := by
  rw [pyFloorDiv, pyTrunc_intCast]

theorem minutes_value (s : ℚ) :
    pyTrunc (pyFloorDiv (pyMod s 3600) 60) = ⌊s / 60⌋ % 60 := by
  rw [pyMod, pyFloorDiv, pyTrunc_intCast]
  have h1 : (s - 3600 * (⌊s / 3600⌋ : ℚ)) / 60 =
      s / 60 - ((60 * ⌊s / 3600⌋ : ℤ) : ℚ) := by
    push_cast
    ring
  rw [h1, Int.floor_sub_int]
  have h2 : ⌊s / 3600⌋ = ⌊s / 60⌋ / 60 := by
    rw [show s / 3600 = s / 60 / ((60 : ℤ) : ℚ) by norm_num; ring,
      floor_div_intCast (s / 60) 60 (by norm_num)]
  rw [h2, Int.emod_def]

theorem secs_value (s : ℚ) : pyTrunc (pyMod s 60) = ⌊s⌋ % 60 := by
  have hnn : (0 : ℚ) ≤ pyMod s 60 := by
    rw [pyMod]
    have := Int.sub_floor_div_mul_nonneg s (show (0 : ℚ) < 60 by norm_num)
    linarith [this]
  rw [pyTrunc, if_neg (not_lt.2 hnn), pyMod]
  have h1 : s - 60 * (⌊s / 60⌋ : ℚ) = s - ((60 * ⌊s / 60⌋ : ℤ) : ℚ) := by
    push_cast
    ring
  rw [h1, Int.floor_sub_int]
  have h2 : ⌊s / 60⌋ = ⌊s⌋ / 60 := by
    rw [show s / 60 = s / ((60 : ℤ) : ℚ) by norm_num,
      floor_div_intCast s 60 (by norm_num)]
  rw [h2, Int.emod_def]

/-- C7: for a nonnegative duration the formatter returns the rounded
millisecond count suffixed " ms" when the input is under one second, and
otherwise renders hours, minutes and seconds with zero-valued higher units
omitted, the hour count being the floor of s/3600, the minute count the
floor of s/60 mod 60 and the second count the floor of s mod 60; in
particular 0.5 gives "500 ms", 65 gives "1 min 5 sec" and 3665 gives
"1 hr 1 min 5 sec". -/
theorem time_format_spec (s : ℚ) (h0 : 0 ≤ s) :
    (s < 1 →
      get_sec_val_and_units s = toString (pyRound (s * 1000)) ++ " ms") ∧
    (1 ≤ s → get_sec_val_and_units s =
      (if 0 < ⌊s / 3600⌋ then
        toString ⌊s / 3600⌋ ++ " hr " ++ toString (⌊s / 60⌋ % 60) ++
          " min " ++ toString (⌊s⌋ % 60) ++ " sec"
      else if 0 < ⌊s / 60⌋ % 60 then
        toString (⌊s / 60⌋ % 60) ++ " min " ++ toString (⌊s⌋ % 60) ++ " sec"
      else
        toString (⌊s⌋ % 60) ++ " sec")) ∧
    get_sec_val_and_units (1 / 2) = "500 ms" ∧
    get_sec_val_and_units 65 = "1 min 5 sec" ∧
    get_sec_val_and_units 3665 = "1 hr 1 min 5 sec" := by
  have hgen : ∀ t : ℚ, ¬t < 1 → get_sec_val_and_units t =
      (if 0 < ⌊t / 3600⌋ then
        toString ⌊t / 3600⌋ ++ " hr " ++ toString (⌊t / 60⌋ % 60) ++
          " min " ++ toString (⌊t⌋ % 60) ++ " sec"
      else if 0 < ⌊t / 60⌋ % 60 then
        toString (⌊t / 60⌋ % 60) ++ " min " ++ toString (⌊t⌋ % 60) ++ " sec"
      else
        toString (⌊t⌋ % 60) ++ " sec") := by
    intro t ht
    rw [get_sec_val_and_units, if_neg ht]
    simp only [hours_value, minutes_value, secs_value]
  refine ⟨?_, fun h1 => hgen s (not_lt.2 h1), ?_, ?_, ?_⟩
  · intro h1
    rw [get_sec_val_and_units, if_pos h1]
  · rw [get_sec_val_and_units, if_pos (by norm_num),
      show (1 : ℚ) / 2 * 1000 = ((500 : ℤ) : ℚ) by norm_num, pyRound_intCast]
    decide
  · rw [hgen 65 (by norm_num), show ⌊(65 : ℚ) / 3600⌋ = 0 by norm_num,
      show ⌊(65 : ℚ) / 60⌋ = 1 by norm_num, show ⌊(65 : ℚ)⌋ = 65 by norm_num]
    decide
  · rw [hgen 3665 (by norm_num), show ⌊(3665 : ℚ) / 3600⌋ = 1 by norm_num,
      show ⌊(3665 : ℚ) / 60⌋ = 61 by norm_num,
      show ⌊(3665 : ℚ)⌋ = 3665 by norm_num]
    decide

theorem time_format_spec_witness :
    (0 : ℚ) ≤ 65 ∧ get_sec_val_and_units 65 = "1 min 5 sec" :=
  ⟨by norm_num, (time_format_spec 65 (by norm_num)).2.2.2.1⟩

/-- C10: for 0 ≤ s < 1 the formatter returns exactly the decimal rendering
of round(s*1000) followed by " ms"; consequently every s in [0.9995, 1)
yields "1000 ms" rather than rolling over to "1 sec", because the
under-one-second test examines the raw input, not the rounded value. -/
theorem ms_branch_spec (s : ℚ) :
    (0 ≤ s → s < 1 →
      get_sec_val_and_units s = toString (pyRound (s * 1000)) ++ " ms") ∧
    (9995 / 10000 ≤ s → s < 1 → get_sec_val_and_units s = "1000 ms") := by
  constructor
  · intro _ h1
    rw [get_sec_val_and_units, if_pos h1]
  · intro hlo hhi
    rw [get_sec_val_and_units, if_pos hhi]
    have hfloor : ⌊s * 1000⌋ = 999 := by
      rw [Int.floor_eq_iff]
      constructor
      · push_cast
        linarith
      · push_cast
        linarith
    have h999 : pyRound (s * 1000) = 1000 := by
      rw [pyRound, hfloor, if_neg (by push_cast; linarith)]
      split_ifs with h2 h3
      · norm_num
      · exact absurd h3 (by decide)
      · norm_num
    rw [h999]
    decide

theorem ms_branch_spec_witness :
    get_sec_val_and_units (9995 / 10000) =
        toString (pyRound (9995 / 10000 * 1000)) ++ " ms" ∧
      get_sec_val_and_units (9995 / 10000) = "1000 ms" :=
  ⟨(ms_branch_spec (9995 / 10000)).1 (by norm_num) (by norm_num),
    (ms_branch_spec (9995 / 10000)).2 (by norm_num) (by norm_num)⟩

/-- The percent-complete expression printed on line 444 of the source at the
report emitted during iteration `i` (0-based) of the scoring loop:
`round((100 * i) / len_all_combos)`. -/
def percent_printed (i n : ℕ) : ℤ :=
  pyRound (((100 * i : ℕ) : ℚ) / (n : ℚ))

/-- Modelled from the spec: "percent complete (integer rounding of
`100 * processed / total`)", where `processed` is the number of combinations
scored so far. -/
def percent_claimed (processed n : ℕ) : ℤ :=
  pyRound (((100 * processed : ℕ) : ℚ) / (n : ℚ))

/-- The scoring loop of `txt_of_all_letter_combos` reduced to its progress
reporting: one pass over the combination indices; each iteration first scores
its combination (the `dict_combos_counts` assignment), then increments
`print_iter`, and reports when `print_iter >= to_print`, resetting it to 0.
Each report is recorded as `(i, processed, percent)` where `processed` is the
number of combinations scored so far. -/
def reports_loop (n to_print : ℕ) :
    List ℕ → ℕ → ℕ → List (ℕ × ℕ × ℤ)
  | [], _, _ => []
  | i :: rest, print_iter, processed =>
      if to_print ≤ print_iter + 1 then
        (i, processed + 1, percent_printed i n) ::
          reports_loop n to_print rest 0 (processed + 1)
      else
        reports_loop n to_print rest (print_iter + 1) (processed + 1)

/-- All progress reports of an exploratory run over `n` combinations with
reporting interval `to_print`. -/
def reports (n to_print : ℕ) : List (ℕ × ℕ × ℤ) :=
  reports_loop n to_print (List.range n) 0 0

theorem reports_loop_spec (n to_print : ℕ) :
    ∀ (m s print_iter : ℕ) {i processed : ℕ} {p : ℤ},
      (i, processed, p) ∈
          reports_loop n to_print (List.range' s m) print_iter s →
      processed = i + 1 ∧ p = percent_printed i n
  | 0, s, print_iter => by
    intro h
    simp [List.range', reports_loop] at h
  | m + 1, s, print_iter => by
    intro h
    rw [List.range'] at h
    rw [reports_loop] at h
    by_cases hc : to_print ≤ print_iter + 1
    · rw [if_pos hc] at h
      rcases List.mem_cons.1 h with heq | h
      · injection heq with h1 h2
        injection h2 with h2 h3
        subst h1
        subst h2
        subst h3
        exact ⟨rfl, rfl⟩
      · exact reports_loop_spec n to_print m (s + 1) 0 h
    · rw [if_neg hc] at h
      exact reports_loop_spec n to_print m (s + 1) (print_iter + 1) h

/-- C6 amended: at every progress report of the exploratory run, the printed
percent equals the integer (half-to-even) rounding of
`100 * (processed - 1) / total`, not of `100 * processed / total`: the code
prints `round((100 * i) / total)` with the 0-based index `i`, and the number
of combinations scored when the report is emitted is `i + 1`. -/
theorem percent_report (n to_print i processed : ℕ) (p : ℤ)
    (h : (i, processed, p) ∈ reports n to_print) :
    processed = i + 1 ∧ p = percent_claimed (processed - 1) n := by
  rw [reports, List.range_eq_range'] at h
  obtain ⟨h1, h2⟩ := reports_loop_spec n to_print n 0 0 h
  subst h1
  exact ⟨rfl, h2⟩

theorem percent_report_witness :
    (0, 1, (0 : ℤ)) ∈ reports 2 1 ∧
      (1 = 0 + 1 ∧ (0 : ℤ) = percent_claimed (1 - 1) 2) := by
  have e0 : percent_printed 0 2 = 0 := by
    rw [percent_printed,
      show (((100 * 0 : ℕ) : ℚ) / ((2 : ℕ) : ℚ)) = ((0 : ℤ) : ℚ) by norm_num,
      pyRound_intCast]
  have hr : reports 2 1 =
      [(0, 1, percent_printed 0 2), (1, 2, percent_printed 1 2)] := rfl
  have hmem : (0, 1, (0 : ℤ)) ∈ reports 2 1 := by
    rw [hr, e0]
    exact List.mem_cons_self _ _
  exact ⟨hmem, percent_report 2 1 0 1 0 hmem⟩

/-- C6 counterexample: with 2 combinations and a report every iteration, the
first report is emitted once one combination has been scored
(`processed = 1`, `total = 2`) and prints percent 0, whereas the claimed
formula `round(100 * processed / total)` gives `round(50) = 50`. -/
theorem percent_report_cex :
    (0, 1, (0 : ℤ)) ∈ reports 2 1 ∧ (0 : ℤ) ≠ percent_claimed 1 2 := by
  have e0 : percent_printed 0 2 = 0 := by
    rw [percent_printed,
      show (((100 * 0 : ℕ) : ℚ) / ((2 : ℕ) : ℚ)) = ((0 : ℤ) : ℚ) by norm_num,
      pyRound_intCast]
  have hr : reports 2 1 =
      [(0, 1, percent_printed 0 2), (1, 2, percent_printed 1 2)] := rfl
  have hclaim : percent_claimed 1 2 = 50 := by
    rw [percent_claimed,
      show (((100 * 1 : ℕ) : ℚ) / ((2 : ℕ) : ℚ)) = ((50 : ℤ) : ℚ) by norm_num,
      pyRound_intCast]
  refine ⟨?_, ?_⟩
  · rw [hr, e0]
    exact List.mem_cons_self _ _
  · rw [hclaim]
    decide

/-- The substitution applied on line 371 of the source:
`word.upper().replace("D", "d")`. -/
def subst_D (w : Word) : Word :=
  (w.map Char.toUpper).map fun c => if c = 'D' then 'd' else c

/-- The claim's description of the substitution: every occurrence of the
character 'D' rewritten to lowercase 'd', no other character changed. -/
def replace_D (w : Word) : Word :=
  w.map fun c => if c = 'D' then 'd' else c

/-- The sequence of words `print_valid_words(letters)` emits into the
`_legal_words` array: filter, substitute, shuffle (`random.shuffle`,
abstracted as a caller-supplied permutation), rearrange by uniqueness.
The printing loop on lines 387-392 prints each entry exactly once in order. -/
def print_valid_words_emitted (ws : List Word) (letters : List Char)
    (shuffle : List Word → List Word) : List Word :=
  (rearrange_words_by_uniqueness
    (shuffle ((list_of_valid_words ws letters).map subst_D))).1

theorem map_toUpper_eq_self {w : Word} (h : ∀ c ∈ w, c.toUpper = c) :
    w.map Char.toUpper = w := by
  induction w with
  | nil => rfl
  | cons c cs ih =>
    rw [List.map_cons, h c (List.mem_cons_self _ _),
      ih fun a ha => h a (List.mem_cons_of_mem _ ha)]

theorem subst_D_eq_replace_D {w : Word} (h : ∀ c ∈ w, c.toUpper = c) :
    subst_D w = replace_D w := by
  rw [subst_D, replace_D, map_toUpper_eq_self h]

/-- C8: if the dictionary words are uppercase (as the source's dictionary is)
and the shuffle permutes its input (as `random.shuffle` does), then the words
emitted in the single-combination output are exactly (up to the shuffle's
reordering) the filtered words with every occurrence of 'D' rewritten to 'd';
each emitted word arises from some filtered word by that substitution, and
the substitution changes no character other than 'D'. -/
theorem emitted_words_subst (ws : List Word) (letters : List Char)
    (shuffle : List Word → List Word)
    (hup : ∀ w ∈ ws, ∀ c ∈ w, c.toUpper = c)
    (hshuf : (shuffle ((list_of_valid_words ws letters).map subst_D)).Perm
      ((list_of_valid_words ws letters).map subst_D)) :
    (print_valid_words_emitted ws letters shuffle).Perm
        ((list_of_valid_words ws letters).map replace_D) ∧
      (∀ w ∈ print_valid_words_emitted ws letters shuffle,
        ∃ v ∈ list_of_valid_words ws letters, w = replace_D v) ∧
      (∀ v : Word, (replace_D v).length = v.length ∧
        ∀ (i : ℕ) (hi : i < v.length) (hi2 : i < (replace_D v).length),
          (replace_D v).get ⟨i, hi2⟩ =
            if v.get ⟨i, hi⟩ = 'D' then 'd' else v.get ⟨i, hi⟩) := by
  have hmapeq : (list_of_valid_words ws letters).map subst_D =
      (list_of_valid_words ws letters).map replace_D := by
    apply List.map_congr_left
    intro v hv
    exact subst_D_eq_replace_D
      (hup v (mem_list_of_valid_words.1 hv).1)
  have hperm : (print_valid_words_emitted ws letters shuffle).Perm
      ((list_of_valid_words ws letters).map replace_D) := by
    rw [print_valid_words_emitted]
    exact (List.filter_append_perm _ _).trans (hmapeq ▸ hshuf)
  refine ⟨hperm, ?_, ?_⟩
  · intro w hw
    have : w ∈ (list_of_valid_words ws letters).map replace_D :=
      hperm.mem_iff.1 hw
    rcases List.mem_map.1 this with ⟨v, hv, rfl⟩
    exact ⟨v, hv, rfl⟩
  · intro v
    refine ⟨by simp [replace_D], ?_⟩
    intro i hi hi2
    simp [replace_D, List.get_eq_getElem, List.getElem_map]

theorem emitted_words_subst_witness :
    (print_valid_words_emitted [['A', 'D', 'D']] ['A', 'D'] id).Perm
        ((list_of_valid_words [['A', 'D', 'D']] ['A', 'D']).map replace_D) ∧
      print_valid_words_emitted [['A', 'D', 'D']] ['A', 'D'] id =
        [['A', 'd', 'd']] :=
  ⟨(emitted_words_subst [['A', 'D', 'D']] ['A', 'D'] id (by decide)
      (List.Perm.refl _)).1,
    by decide⟩
